import Mathlib

/-! # Verification of the COCO-to-YOLO converter

A shallow embedding of `coco2yolo.py`.  Python dictionaries become ordered
association lists (matching dict insertion-order semantics), float arithmetic
is idealized as exact rational arithmetic, raised exceptions become an error
type threaded through `Except`, and writing the output files becomes returning
the list of (file name, file content) pairs. -/

namespace Coco2Yolo

/-- The exceptions the pipeline can raise.  `missingAnns` embeds the
`ValueError` of `__convert_annotations` when the key is absent; `missingImage`
the `TypeError` from subscripting the `None` returned by `images_info.get`
(named `MissingImageError` by the design document); `unknownCategory` the
`ValueError` of `list.index` in `__save_txt_file` when `.get` returned `None`;
`emptyGroup` the `IndexError` of `value[0]` on an empty group. -/
inductive ConvError where
  | missingAnns
  | missingImage
  | unknownCategory
  | emptyGroup
  deriving DecidableEq

instance {ε α : Type} [DecidableEq ε] [DecidableEq α] : DecidableEq (Except ε α) := fun a b =>
  match a, b with
  | Except.ok x, Except.ok y =>
    if h : x = y then Decidable.isTrue (by rw [h]) else Decidable.isFalse (by simp [h])
  | Except.error x, Except.error y =>
    if h : x = y then Decidable.isTrue (by rw [h]) else Decidable.isFalse (by simp [h])
  | Except.ok _, Except.error _ => Decidable.isFalse (by simp)
  | Except.error _, Except.ok _ => Decidable.isFalse (by simp)

/-- Python dict lookup `m.get(k)` for an insertion-ordered dict embedded as an
association list. -/
def alistGet {β : Type} (k : Int) : List (Int × β) → Option β
  | [] => none
  | p :: rest => if p.1 = k then some p.2 else alistGet k rest

/-- Python dict assignment `m[k] = v`: overwrite in place keeping the slot, or
append a new slot at the end. -/
def alistSet {β : Type} (k : Int) (v : β) : List (Int × β) → List (Int × β)
  | [] => [(k, v)]
  | p :: rest => if p.1 = k then (k, v) :: rest else p :: alistSet k v rest

/-- Python `list.index` (position of the first occurrence), returning `none`
where Python raises `ValueError`. -/
def listIndex {α : Type} [DecidableEq α] (a : α) : List α → Option Nat
  | [] => none
  | b :: rest => if b = a then some 0 else (listIndex a rest).map (· + 1)

/-- One record of the document's `categories` list. -/
structure CategoryRecord where
  id : Int
  name : String
  deriving DecidableEq

/-- One record of the document's `images` list. -/
structure ImageRecord where
  id : Int
  fileName : String
  width : ℚ
  height : ℚ
  deriving DecidableEq

/-- One record of the document's third list: `image_id`, `category_id` and the
four `bbox` numbers. -/
structure AnnRecord where
  imageId : Int
  categoryId : Int
  bbox : ℚ × ℚ × ℚ × ℚ
  deriving DecidableEq

/-- The parsed JSON document `self.__labels`.  The third field (the source's
`annotations` key) is an `Option` because `__convert_annotations` explicitly
checks its presence. -/
structure Labels where
  images : List ImageRecord
  categories : List CategoryRecord
  anns : Option (List AnnRecord)
  deriving DecidableEq

/-- `__categories`: the dict id → name built by one pass over the categories
list of the document. -/
def catMapOf (cs : List CategoryRecord) : List (Int × String) :=
  cs.foldl (fun m c => alistSet c.id c.name m) []

/-- `self.__coco_name_list = list(self.__coco_id_name_map.values())`. -/
def nameListOf (cs : List CategoryRecord) : List String :=
  (catMapOf cs).map Prod.snd

/-- `__load_images_info`: the dict id → (filename, width, height). -/
def loadImagesInfo (l : Labels) : List (Int × (String × ℚ × ℚ)) :=
  l.images.foldl (fun m i => alistSet i.id (i.fileName, i.width, i.height) m) []

/-- `__convert_bbox`, with Python float arithmetic idealized as exact rational
arithmetic. -/
def convertBbox (bbox : ℚ × ℚ × ℚ × ℚ) (width height : ℚ) : ℚ × ℚ × ℚ × ℚ :=
  let posX := bbox.1
  let posY := bbox.2.1
  let posW := bbox.2.2.1
  let posH := bbox.2.2.2
  let centerX := posX + posW / 2
  let centerY := posY + posH / 2
  (centerX * (1 / width), centerY * (1 / height), posW * (1 / width), posH * (1 / height))

/-- The tuple `(img_name, category_id, yolo_box)` appended per record. -/
abbrev AnnInfo := String × Int × (ℚ × ℚ × ℚ × ℚ)

/-- The aggregation dict `annotations_dict`: image id → list of `AnnInfo`. -/
abbrev GroupMap := List (Int × List AnnInfo)

instance : DecidableEq AnnInfo := inferInstance

instance : DecidableEq (List AnnInfo) := List.hasDecEq

instance : DecidableEq GroupMap := inferInstance

/-- The body of the loop of `__convert_annotations` for one record: the image
lookup (`images_info.get` followed by subscripting, which raises on `None`),
the bbox conversion, and the falsy-checked insert-or-append on the aggregation
dict. -/
def convStep (info : List (Int × (String × ℚ × ℚ))) (m : GroupMap) (a : AnnRecord) :
    Except ConvError GroupMap :=
  match alistGet a.imageId info with
  | none => Except.error ConvError.missingImage
  | some imgInfo =>
    let yoloBox := convertBbox a.bbox imgInfo.2.1 imgInfo.2.2
    let annInfo : AnnInfo := (imgInfo.1, a.categoryId, yoloBox)
    let cur := (alistGet a.imageId m).getD []
    if cur.isEmpty then Except.ok (alistSet a.imageId [annInfo] m)
    else Except.ok (alistSet a.imageId (cur ++ [annInfo]) m)

/-- The loop of `__convert_annotations`, halting at the first raised error. -/
def foldSteps (info : List (Int × (String × ℚ × ℚ))) :
    List AnnRecord → GroupMap → Except ConvError GroupMap
  | [], m => Except.ok m
  | a :: rest, m =>
    match convStep info m a with
    | Except.error e => Except.error e
    | Except.ok m2 => foldSteps info rest m2

/-- `__convert_annotations`: raises when the third key is absent, otherwise
folds the per-record step over the record list starting from the empty dict. -/
def convertAnns (l : Labels) (info : List (Int × (String × ℚ × ℚ))) :
    Except ConvError GroupMap :=
  match l.anns with
  | none => Except.error ConvError.missingAnns
  | some la => foldSteps info la []

/-- The character of a single decimal digit. -/
def digitChar : Nat → Char
  | 0 => '0'
  | 1 => '1'
  | 2 => '2'
  | 3 => '3'
  | 4 => '4'
  | 5 => '5'
  | 6 => '6'
  | 7 => '7'
  | 8 => '8'
  | 9 => '9'
  | _ => '*'

/-- Fueled digit expansion (structural so the kernel can evaluate it). -/
def natDigsAux : Nat → Nat → List Char
  | 0, _ => []
  | fuel + 1, n =>
    if n < 10 then [digitChar n]
    else natDigsAux fuel (n / 10) ++ [digitChar (n % 10)]

/-- The decimal digits of a natural number, as Python renders an int. -/
def natDigs (n : Nat) : List Char := natDigsAux (n + 1) n

/-- Python's rendering of a nonnegative int in an f-string. -/
def natToStr (n : Nat) : String := String.mk (natDigs n)

/-- Exactly `k` low decimal digits of `n`, most significant first. -/
def digitsFixed : Nat → Nat → List Char
  | 0, _ => []
  | k + 1, n => digitsFixed k (n / 10) ++ [digitChar (n % 10)]

/-- The floor of a rational, computed by flooring integer division (the
denominator of a `Rat` is always positive). -/
def ratFloor (q : ℚ) : Int := Int.fdiv q.num q.den

/-- Rounding a rational to the nearest integer (half rounds up). -/
def ratRound (q : ℚ) : Int := ratFloor (q + 1 / 2)

/-- The characters before the decimal point of `'{:.6f}'.format`. -/
def fmt6IntChars (q : ℚ) : List Char :=
  let n : Int := ratRound (q * 1000000)
  (if n < 0 then ['-'] else []) ++ natDigs (n.natAbs / 1000000)

/-- The six characters after the decimal point of `'{:.6f}'.format`. -/
def fmt6FracChars (q : ℚ) : List Char :=
  digitsFixed 6 (Int.natAbs (ratRound (q * 1000000)) % 1000000)

/-- `'{:.6f}'.format`, idealizing float rounding as rounding the exact rational
to the nearest multiple of one millionth. -/
def fmt6 (q : ℚ) : String :=
  String.mk (fmt6IntChars q) ++ "." ++ String.mk (fmt6FracChars q)

/-- Lines 166-167 of `__save_txt_file`: `self.__coco_id_name_map.get(obj[1])`
followed by `self.__coco_name_list.index(category_name)`; a miss in either
raises (the design document's `UnknownCategoryError`). -/
def resolveIdx (nameMap : List (Int × String)) (nameList : List String) (catId : Int) :
    Except ConvError Nat :=
  match alistGet catId nameMap with
  | none => Except.error ConvError.unknownCategory
  | some nm =>
    match listIndex nm nameList with
    | none => Except.error ConvError.unknownCategory
    | some i => Except.ok i

/-- The space-joined `'{:.6f}'`-formatted box of one output line. -/
def boxStr (b : ℚ × ℚ × ℚ × ℚ) : String :=
  fmt6 b.1 ++ " " ++ fmt6 b.2.1 ++ " " ++ fmt6 b.2.2.1 ++ " " ++ fmt6 b.2.2.2

/-- The resolved class index, defaulting to 0 on the raising miss (used only to
describe successfully written lines). -/
def classIdxD (nameMap : List (Int × String)) (nameList : List String) (catId : Int) : Nat :=
  match resolveIdx nameMap nameList catId with
  | Except.ok i => i
  | Except.error _ => 0

/-- The text of one output line, trailing newline included. -/
def lineStr (nameMap : List (Int × String)) (nameList : List String) (obj : AnnInfo) : String :=
  natToStr (classIdxD nameMap nameList obj.2.1) ++ " " ++ boxStr obj.2.2 ++ "\n"

/-- The inner loop of `__save_txt_file`: accumulates the written lines of one
file, raising at the first unresolvable category id. -/
def writeLines (nameMap : List (Int × String)) (nameList : List String) :
    List AnnInfo → String → Except ConvError String
  | [], acc => Except.ok acc
  | obj :: rest, acc =>
    match resolveIdx nameMap nameList obj.2.1 with
    | Except.error e => Except.error e
    | Except.ok i =>
      writeLines nameMap nameList rest (acc ++ natToStr i ++ " " ++ boxStr obj.2.2 ++ "\n")

/-- The final path component: everything after the last slash. -/
def basenameChars (s : List Char) : List Char :=
  (s.reverse.takeWhile fun c => c != '/').reverse

/-- The left-side index of the last dot (Python `str.rfind`). -/
def rfindDot (s : List Char) : Option Nat :=
  (listIndex '.' s.reverse).map fun j => s.length - 1 - j

/-- `pathlib.PurePath(...).stem`: the basename without its last suffix, where a
suffix counts only when its dot is neither the first nor the last character of
the basename. -/
def stemChars (s : List Char) : List Char :=
  let nm := basenameChars s
  match rfindDot nm with
  | none => nm
  | some i => if 0 < i ∧ i + 1 < nm.length then nm.take i else nm

/-- `Path(file_name).stem` on an embedded string. -/
def stemOf (s : String) : String := String.mk (stemChars s.data)

/-- One iteration of the outer loop of `__save_txt_file`: the file name comes
from the first tuple of the group (raising on an empty group), then the group's
lines are written in order. -/
def saveOne (nameMap : List (Int × String)) (nameList : List String) (value : List AnnInfo) :
    Except ConvError (String × String) :=
  match value with
  | [] => Except.error ConvError.emptyGroup
  | first :: _ =>
    match writeLines nameMap nameList value "" with
    | Except.error e => Except.error e
    | Except.ok content => Except.ok (stemOf first.1 ++ ".txt", content)

/-- `__save_txt_file`: one (file name, content) pair per group, in dict
insertion order. -/
def saveTxt (nameMap : List (Int × String)) (nameList : List String) :
    GroupMap → Except ConvError (List (String × String))
  | [] => Except.ok []
  | g :: rest =>
    match saveOne nameMap nameList g.2 with
    | Except.error e => Except.error e
    | Except.ok f =>
      match saveTxt nameMap nameList rest with
      | Except.error e => Except.error e
      | Except.ok fs => Except.ok (f :: fs)

/-- The `convert` method: the full pipeline on a loaded document. -/
def convert (l : Labels) : Except ConvError (List (String × String)) :=
  match convertAnns l (loadImagesInfo l) with
  | Except.error e => Except.error e
  | Except.ok groups => saveTxt (catMapOf l.categories) (nameListOf l.categories) groups

/-- Concatenation of a list of strings. -/
def concatAll : List String → String
  | [] => ""
  | s :: rest => s ++ concatAll rest

/-- Spec-side definition (design document section 3): category names collected
in document order with duplicate names collapsed to one slot, first occurrence
winning. -/
def specDedupNames (cs : List CategoryRecord) : List String :=
  cs.foldl (fun acc c => if c.name ∈ acc then acc else acc ++ [c.name]) []

/-- Spec-side CategoryIndex (design document section 3): id → name, then the
position of the name in the deduplicated name list. -/
def specClassIndex (cs : List CategoryRecord) (catId : Int) : Option Nat :=
  match alistGet catId (catMapOf cs) with
  | none => none
  | some nm => listIndex nm (specDedupNames cs)

/-- Two categories in the order of the design document's re-indexing example. -/
def demoCats : List CategoryRecord := [⟨5, "cat"⟩, ⟨2, "dog"⟩]

/-- Three categories of which the first two share a name. -/
def dupCats : List CategoryRecord := [⟨1, "cat"⟩, ⟨2, "cat"⟩, ⟨3, "dog"⟩]

/-- A document whose single record references a category id never declared. -/
def labelsUndeclared : Labels :=
  { images := [⟨10, "img.jpg", 100, 100⟩]
    categories := [⟨1, "cat"⟩]
    anns := some [⟨10, 2, (10, 20, 30, 40)⟩] }

/-- The aggregation dict the transformer stage produces on `labelsUndeclared`. -/
def demoGroups : GroupMap :=
  [(10, [("img.jpg", 2, convertBbox (10, 20, 30, 40) 100 100)])]

/-- The tuple the transformer stores for one record, written directly from the
record and the image index (junk filename when the image lookup would raise —
that case is unreachable on a successful run). -/
def annInfoOf (info : List (Int × (String × ℚ × ℚ))) (a : AnnRecord) : AnnInfo :=
  match alistGet a.imageId info with
  | some imgInfo => (imgInfo.1, a.categoryId, convertBbox a.bbox imgInfo.2.1 imgInfo.2.2)
  | none => ("", a.categoryId, a.bbox)

/-- A document whose single record references an image id never declared. -/
def labelsNoImage : Labels :=
  { images := []
    categories := [⟨1, "cat"⟩]
    anns := some [⟨99, 1, (0, 0, 1, 1)⟩] }

/-- Strings with equal character lists are equal. -/
theorem strEq_of_data (a b : String) (h : a.data = b.data) : a = b := by
  cases a
  cases b
  exact congrArg String.mk h

/-- Appending strings appends their character lists. -/
theorem strData_append (a b : String) : (a ++ b).data = a.data ++ b.data := by
  cases a
  cases b
  rfl

/-- String append is associative. -/
theorem strAppend_assoc (a b c : String) : a ++ b ++ c = a ++ (b ++ c) := by
  apply strEq_of_data
  simp [strData_append]

/-- The empty string is a right identity of append. -/
theorem strAppend_empty (a : String) : a ++ "" = a := by
  apply strEq_of_data
  simp [strData_append]

/-- `digitChar` of a value below ten is a digit character. -/
theorem digitChar_isDigit (d : Nat) (h : d < 10) : (digitChar d).isDigit = true := by
  interval_cases d <;> decide

/-- Every character of the fueled digit expansion is a digit. -/
theorem natDigsAux_digits : ∀ fuel n c, c ∈ natDigsAux fuel n → c.isDigit = true := by
  intro fuel
  induction fuel with
  | zero => intro n c hc; simp [natDigsAux] at hc
  | succ fuel ih =>
    intro n c hc
    rw [natDigsAux] at hc
    by_cases h : n < 10
    · rw [if_pos h] at hc
      simp at hc
      subst hc
      exact digitChar_isDigit n h
    · rw [if_neg h] at hc
      rcases List.mem_append.mp hc with h1 | h1
      · exact ih (n / 10) c h1
      · simp at h1
        subst h1
        exact digitChar_isDigit (n % 10) (Nat.mod_lt n (by omega))

/-- Every character of `natDigs` is a digit. -/
theorem natDigs_digits (n : Nat) (c : Char) (hc : c ∈ natDigs n) : c.isDigit = true :=
  natDigsAux_digits (n + 1) n c hc

/-- `digitsFixed k` always yields exactly `k` characters. -/
theorem digitsFixed_length : ∀ k n, (digitsFixed k n).length = k := by
  intro k
  induction k with
  | zero => intro n; rfl
  | succ k ih => intro n; simp [digitsFixed, ih]

/-- Every character `digitsFixed` yields is a digit. -/
theorem digitsFixed_digits : ∀ k n c, c ∈ digitsFixed k n → c.isDigit = true := by
  intro k
  induction k with
  | zero => intro n c hc; simp [digitsFixed] at hc
  | succ k ih =>
    intro n c hc
    rw [digitsFixed] at hc
    rcases List.mem_append.mp hc with h1 | h1
    · exact ih (n / 10) c h1
    · simp at h1
      subst h1
      exact digitChar_isDigit (n % 10) (Nat.mod_lt n (by omega))

/-- A digit character is not a dot. -/
theorem isDigit_ne_dot (c : Char) (h : c.isDigit = true) : c ≠ '.' := by
  intro hc
  subst hc
  exact absurd h (by decide)

/-- Setting an absent key appends the binding at the end (Python dict insertion
order). -/
theorem alistSet_append_of_none {β : Type} (k : Int) (v : β) :
    ∀ m : List (Int × β), alistGet k m = none → alistSet k v m = m ++ [(k, v)] := by
  intro m
  induction m with
  | nil => intro _; rfl
  | cons p rest ih =>
    intro h
    rw [alistGet] at h
    by_cases hp : p.1 = k
    · rw [if_pos hp] at h
      exact absurd h (by simp)
    · rw [if_neg hp] at h
      rw [alistSet, if_neg hp, ih h]
      rfl

/-- Lookup distributes over append when the key misses the first part. -/
theorem alistGet_append_of_none {β : Type} (k : Int) :
    ∀ m1 m2 : List (Int × β), alistGet k m1 = none →
      alistGet k (m1 ++ m2) = alistGet k m2 := by
  intro m1
  induction m1 with
  | nil => intro m2 _; rfl
  | cons p rest ih =>
    intro m2 h
    rw [alistGet] at h
    by_cases hp : p.1 = k
    · rw [if_pos hp] at h
      exact absurd h (by simp)
    · rw [if_neg hp] at h
      rw [List.cons_append, alistGet, if_neg hp]
      exact ih m2 h

/-- A successful lookup finds a member of the association list. -/
theorem alistGet_mem {β : Type} (k : Int) (v : β) :
    ∀ m : List (Int × β), alistGet k m = some v → (k, v) ∈ m := by
  intro m
  induction m with
  | nil => intro h; exact absurd h (by simp [alistGet])
  | cons p rest ih =>
    intro h
    rw [alistGet] at h
    by_cases hp : p.1 = k
    · rw [if_pos hp] at h
      injection h with h
      have hkv : (k, v) = p := by
        obtain ⟨a, b⟩ := p
        simp only at hp h
        rw [hp, h]
      rw [hkv]
      exact List.mem_cons_self _ _
    · rw [if_neg hp] at h
      exact List.mem_cons_of_mem p (ih h)

/-- With pairwise-distinct keys, lookup of a member's key finds its value. -/
theorem alistGet_of_mem_nodupKeys {β : Type} :
    ∀ (m : List (Int × β)) (p : Int × β), (m.map Prod.fst).Nodup → p ∈ m →
      alistGet p.1 m = some p.2 := by
  intro m
  induction m with
  | nil => intro p _ hp; exact absurd hp (by simp)
  | cons q rest ih =>
    intro p hd hp
    rw [List.map_cons, List.nodup_cons] at hd
    rcases List.mem_cons.mp hp with h | h
    · subst h
      rw [alistGet, if_pos rfl]
    · have hne : q.1 ≠ p.1 := by
        intro he
        exact hd.1 (he ▸ List.mem_map.mpr ⟨p, h, rfl⟩)
      rw [alistGet, if_neg hne]
      exact ih p hd.2 h

/-- In a duplicate-free list, the index found for the element at position `k`
is `k` itself. -/
theorem listIndex_get_nodup {α : Type} [DecidableEq α] :
    ∀ (l : List α), l.Nodup → ∀ k (hk : k < l.length),
      listIndex (l[k]) l = some k := by
  intro l
  induction l with
  | nil => intro _ k hk; exact absurd hk (by simp)
  | cons b rest ih =>
    intro hd k hk
    rw [List.nodup_cons] at hd
    cases k with
    | zero =>
      rw [List.getElem_cons_zero, listIndex, if_pos rfl]
    | succ k =>
      have hk2 : k < rest.length := by simpa using hk
      have hmem : rest[k] ∈ rest := List.getElem_mem hk2
      have hne : b ≠ rest[k] := by
        intro he
        exact hd.1 (he ▸ hmem)
      rw [List.getElem_cons_succ, listIndex, if_neg hne, ih hd.2 k hk2]
      rfl

/-- C1: for every bbox `(x, y, w, h)` and positive image dimensions, the
normalized box produced by `__convert_bbox` equals exactly
`((x + w/2)/width, (y + h/2)/height, w/width, h/height)`, with no rounding and
no clamping. -/
theorem convertBbox_exact (x y w h width height : ℚ)
    (hw : 0 < width) (hh : 0 < height) :
    convertBbox (x, y, w, h) width height =
      ((x + w / 2) / width, (y + h / 2) / height, w / width, h / height) := by
  simp [convertBbox, div_eq_mul_inv]

/-- C1 witness: the conversion at bbox `[10, 20, 30, 40]` in a 100 by 200
image. -/
theorem convertBbox_exact_witness :
    0 < (100 : ℚ) ∧ 0 < (200 : ℚ) ∧
      convertBbox (10, 20, 30, 40) 100 200 =
        ((10 + 30 / 2) / 100, (20 + 40 / 2) / 200, 30 / 100, 40 / 200) :=
  ⟨by norm_num, by norm_num,
    convertBbox_exact 10 20 30 40 100 200 (by norm_num) (by norm_num)⟩

/-- Folding dict assignment over category records with fresh distinct ids
appends one binding per record, in document order. -/
theorem foldl_alistSet_fresh :
    ∀ (cs : List CategoryRecord) (m : List (Int × String)),
      (∀ c ∈ cs, alistGet c.id m = none) → (cs.map fun c => c.id).Nodup →
      cs.foldl (fun m c => alistSet c.id c.name m) m = m ++ cs.map fun c => (c.id, c.name) := by
  intro cs
  induction cs with
  | nil => intro m _ _; simp
  | cons c rest ih =>
    intro m hm hd
    rw [List.foldl_cons]
    rw [alistSet_append_of_none c.id c.name m (hm c (List.mem_cons_self _ _))]
    rw [List.map_cons, List.nodup_cons] at hd
    have hm2 : ∀ c2 ∈ rest, alistGet c2.id (m ++ [(c.id, c.name)]) = none := by
      intro c2 hc2
      rw [alistGet_append_of_none c2.id m [(c.id, c.name)] (hm c2 (List.mem_cons_of_mem c hc2))]
      rw [alistGet]
      have hne : c.id ≠ c2.id := by
        intro he
        exact hd.1 (he ▸ List.mem_map.mpr ⟨c2, hc2, rfl⟩)
      rw [if_neg hne]
      rfl
    rw [ih (m ++ [(c.id, c.name)]) hm2 hd.2]
    simp

/-- With distinct ids, `__categories` returns exactly one binding per record in
document order. -/
theorem catMapOf_eq (cs : List CategoryRecord) (hd : (cs.map fun c => c.id).Nodup) :
    catMapOf cs = cs.map fun c => (c.id, c.name) := by
  have h := foldl_alistSet_fresh cs [] (fun c _ => rfl) hd
  simpa [catMapOf] using h

/-- With distinct ids, the name list is the category names in document order,
duplicates included. -/
theorem nameListOf_eq (cs : List CategoryRecord) (hd : (cs.map fun c => c.id).Nodup) :
    nameListOf cs = cs.map fun c => c.name := by
  rw [nameListOf, catMapOf_eq cs hd, List.map_map]
  rfl

/-- With distinct ids, looking a declared category's id up in the id-to-name
dict yields its declared name. -/
theorem alistGet_catMap (cs : List CategoryRecord) (hd : (cs.map fun c => c.id).Nodup)
    (c : CategoryRecord) (hc : c ∈ cs) : alistGet c.id (catMapOf cs) = some c.name := by
  rw [catMapOf_eq cs hd]
  have hkeys : (((cs.map fun c => (c.id, c.name)).map Prod.fst)).Nodup := by
    rw [List.map_map]
    exact hd
  exact alistGet_of_mem_nodupKeys _ (c.id, c.name) hkeys (List.mem_map.mpr ⟨c, hc, rfl⟩)

/-- C2: when all category names are distinct (and ids are unique, as the data
model requires of a document), the class index resolved for the category
declared at position `k` of the categories sequence is `k` itself, regardless
of the numeric id values. -/
theorem classIndex_is_document_position (cs : List CategoryRecord)
    (hid : (cs.map fun c => c.id).Nodup) (hname : (cs.map fun c => c.name).Nodup)
    (k : Nat) (hk : k < cs.length) :
    resolveIdx (catMapOf cs) (nameListOf cs) (cs[k]).id = Except.ok k := by
  have h1 : alistGet (cs[k]).id (catMapOf cs) = some (cs[k]).name :=
    alistGet_catMap cs hid _ (List.getElem_mem hk)
  have h2 : nameListOf cs = cs.map fun c => c.name := nameListOf_eq cs hid
  have hk2 : k < (cs.map fun c => c.name).length := by simpa using hk
  have hget : (cs.map fun c => c.name)[k] = (cs[k]).name := by
    simp
  have h3 : listIndex (cs[k]).name (cs.map fun c => c.name) = some k := by
    have h4 := listIndex_get_nodup (cs.map fun c => c.name) hname k hk2
    rwa [hget] at h4
  simp [resolveIdx, h1, h2, h3]

/-- C2 witness: categories declared in order `[{id:5, name:"cat"},
{id:2, name:"dog"}]` give id 5 the class index 0. -/
theorem classIndex_is_document_position_witness :
    (demoCats.map fun c => c.id).Nodup ∧ (demoCats.map fun c => c.name).Nodup ∧
      resolveIdx (catMapOf demoCats) (nameListOf demoCats) 5 = Except.ok 0 :=
  ⟨by decide, by decide,
    classIndex_is_document_position demoCats (by decide) (by decide) 0 (by decide)⟩

/-- C3 counterexample: with categories `[{1,"cat"}, {2,"cat"}, {3,"dog"}]` the
code resolves id 3 to index 2 (position in the full, un-deduplicated name
list), while the claimed dense position in the deduplicated name list is 1. -/
theorem dup_names_not_dense :
    resolveIdx (catMapOf dupCats) (nameListOf dupCats) 3 = Except.ok 2 ∧
      specClassIndex dupCats 3 = some 1 ∧ (2 : Nat) ≠ 1 :=
  ⟨by decide, by decide, by decide⟩

/-- C3 amended: with unique ids, the class index of the category declared at
position `k` is the position of the first occurrence of its name in the full
list of category names in document order, duplicates not collapsed. -/
theorem classIndex_first_occurrence (cs : List CategoryRecord)
    (hid : (cs.map fun c => c.id).Nodup) (k : Nat) (hk : k < cs.length) (j : Nat)
    (hj : listIndex (cs[k]).name (cs.map fun c => c.name) = some j) :
    resolveIdx (catMapOf cs) (nameListOf cs) (cs[k]).id = Except.ok j := by
  have h1 : alistGet (cs[k]).id (catMapOf cs) = some (cs[k]).name :=
    alistGet_catMap cs hid _ (List.getElem_mem hk)
  have h2 : nameListOf cs = cs.map fun c => c.name := nameListOf_eq cs hid
  simp [resolveIdx, h1, h2, hj]

/-- C3 amended witness: in `dupCats`, id 3 (declared third, after a duplicate
name) resolves to index 2, the position of "dog" in the full name list. -/
theorem classIndex_first_occurrence_witness :
    (dupCats.map fun c => c.id).Nodup ∧
      listIndex "dog" (dupCats.map fun c => c.name) = some 2 ∧
      resolveIdx (catMapOf dupCats) (nameListOf dupCats) 3 = Except.ok 2 :=
  ⟨by decide, by decide,
    classIndex_first_occurrence dupCats (by decide) 2 (by decide) 2 (by decide)⟩

/-- C4: in a document with unique ids, two category records sharing one name
resolve to the same class index. -/
theorem same_name_same_index (cs : List CategoryRecord)
    (hid : (cs.map fun c => c.id).Nodup) (c1 c2 : CategoryRecord)
    (h1 : c1 ∈ cs) (h2 : c2 ∈ cs) (hn : c1.name = c2.name) :
    resolveIdx (catMapOf cs) (nameListOf cs) c1.id =
      resolveIdx (catMapOf cs) (nameListOf cs) c2.id := by
  have g1 := alistGet_catMap cs hid c1 h1
  have g2 := alistGet_catMap cs hid c2 h2
  rw [resolveIdx, resolveIdx, g1, g2, hn]

/-- C4 witness: ids 1 and 2 of `dupCats` share the name "cat" and resolve to
the same class index. -/
theorem same_name_same_index_witness :
    (dupCats.map fun c => c.id).Nodup ∧
      resolveIdx (catMapOf dupCats) (nameListOf dupCats) 1 =
        resolveIdx (catMapOf dupCats) (nameListOf dupCats) 2 :=
  ⟨by decide,
    same_name_same_index dupCats (by decide) ⟨1, "cat"⟩ ⟨2, "cat"⟩ (by decide) (by decide) rfl⟩

/-- The per-record step raises nothing but the missing-image error. -/
theorem convStep_error (info : List (Int × (String × ℚ × ℚ))) (m : GroupMap) (a : AnnRecord)
    (e : ConvError) (h : convStep info m a = Except.error e) : e = ConvError.missingImage := by
  cases hg : alistGet a.imageId info with
  | none =>
    simp only [convStep, hg] at h
    injection h with h
    exact h.symm
  | some imgInfo =>
    simp only [convStep, hg] at h
    by_cases hc : ((alistGet a.imageId m).getD []).isEmpty
    · rw [if_pos hc] at h
      exact absurd h (by simp)
    · rw [if_neg hc] at h
      exact absurd h (by simp)

/-- A successful per-record step implies the image lookup succeeded. -/
theorem convStep_ok_lookup (info : List (Int × (String × ℚ × ℚ))) (m : GroupMap)
    (a : AnnRecord) (m2 : GroupMap) (h : convStep info m a = Except.ok m2) :
    alistGet a.imageId info ≠ none := by
  intro hg
  simp only [convStep, hg] at h
  exact Except.noConfusion h

/-- Any error of the transformer loop is the missing-image error. -/
theorem foldSteps_error (info : List (Int × (String × ℚ × ℚ))) :
    ∀ (xs : List AnnRecord) (m : GroupMap) (e : ConvError),
      foldSteps info xs m = Except.error e → e = ConvError.missingImage := by
  intro xs
  induction xs with
  | nil => intro m e h; simp [foldSteps] at h
  | cons a rest ih =>
    intro m e h
    cases hs : convStep info m a with
    | error e2 =>
      simp only [foldSteps, hs] at h
      injection h with h
      rw [← h]
      exact convStep_error info m a e2 hs
    | ok m2 =>
      simp only [foldSteps, hs] at h
      exact ih m2 e h

/-- A record whose image id misses the index forces the transformer loop to
end in the missing-image error. -/
theorem foldSteps_missingImage (info : List (Int × (String × ℚ × ℚ))) :
    ∀ (xs : List AnnRecord) (m : GroupMap),
      (∃ b ∈ xs, alistGet b.imageId info = none) →
      foldSteps info xs m = Except.error ConvError.missingImage := by
  intro xs
  induction xs with
  | nil => intro m h; simp at h
  | cons a rest ih =>
    intro m h
    cases hs : convStep info m a with
    | error e =>
      have he := convStep_error info m a e hs
      subst he
      simp only [foldSteps, hs]
    | ok m2 =>
      rcases h with ⟨b, hb, hbg⟩
      rcases List.mem_cons.mp hb with h1 | h1
      · subst h1
        exact absurd hbg (convStep_ok_lookup info m b m2 hs)
      · simp only [foldSteps, hs]
        exact ih m2 ⟨b, h1, hbg⟩

/-- C5: `__convert_annotations` fails with the missing-annotations error
exactly when the third key is absent from the document; a present-but-empty
record list yields zero groups and the whole conversion zero output files. -/
theorem missingAnns_iff_absent (l : Labels) (info : List (Int × (String × ℚ × ℚ))) :
    (convertAnns l info = Except.error ConvError.missingAnns ↔ l.anns = none) ∧
      (l.anns = some [] → convertAnns l info = Except.ok [] ∧ convert l = Except.ok []) := by
  constructor
  · constructor
    · intro h
      cases hA : l.anns with
      | none => rfl
      | some la =>
        simp only [convertAnns, hA] at h
        have he := foldSteps_error info la [] _ h
        exact absurd he (by decide)
    · intro h
      simp [convertAnns, h]
  · intro h
    refine ⟨?_, ?_⟩
    · simp [convertAnns, h, foldSteps]
    · simp [convert, convertAnns, h, foldSteps, saveTxt]

/-- C5 witness: an empty record list converts to zero groups and zero files,
while an absent key raises the missing-annotations error. -/
theorem missingAnns_iff_absent_witness :
    (convertAnns ⟨[], [], some []⟩ [] = Except.ok [] ∧ convert ⟨[], [], some []⟩ = Except.ok []) ∧
      convertAnns ⟨[], [], none⟩ [] = Except.error ConvError.missingAnns :=
  ⟨(missingAnns_iff_absent ⟨[], [], some []⟩ []).2 rfl,
    (missingAnns_iff_absent ⟨[], [], none⟩ []).1.mpr rfl⟩

/-- C6: a record whose image id is not a key of the image index makes the
transformer fail with the missing-image error; the record is never silently
skipped. -/
theorem missing_image_halts (l : Labels) (info : List (Int × (String × ℚ × ℚ)))
    (la : List AnnRecord) (hl : l.anns = some la) (a : AnnRecord) (ha : a ∈ la)
    (hg : alistGet a.imageId info = none) :
    convertAnns l info = Except.error ConvError.missingImage := by
  simp only [convertAnns, hl]
  exact foldSteps_missingImage info la [] ⟨a, ha, hg⟩

/-- C6 witness: a document whose only record references image id 99, which no
image declares. -/
theorem missing_image_halts_witness :
    labelsNoImage.anns = some [⟨99, 1, (0, 0, 1, 1)⟩] ∧
      convertAnns labelsNoImage (loadImagesInfo labelsNoImage)
        = Except.error ConvError.missingImage :=
  ⟨rfl,
    missing_image_halts labelsNoImage (loadImagesInfo labelsNoImage) _ rfl
      ⟨99, 1, (0, 0, 1, 1)⟩ (by decide) rfl⟩

/-- Class-index resolution raises nothing but the unknown-category error. -/
theorem resolveIdx_error (nm : List (Int × String)) (nl : List String) (cid : Int)
    (e : ConvError) (h : resolveIdx nm nl cid = Except.error e) :
    e = ConvError.unknownCategory := by
  cases hg : alistGet cid nm with
  | none =>
    simp only [resolveIdx, hg] at h
    injection h with h
    exact h.symm
  | some nm2 =>
    cases hi : listIndex nm2 nl with
    | none =>
      simp only [resolveIdx, hg, hi] at h
      injection h with h
      exact h.symm
    | some i =>
      simp only [resolveIdx, hg, hi] at h
      exact Except.noConfusion h

/-- A successful class-index resolution implies the id is a key of the dict. -/
theorem resolveIdx_ok_lookup (nm : List (Int × String)) (nl : List String) (cid : Int)
    (i : Nat) (h : resolveIdx nm nl cid = Except.ok i) : alistGet cid nm ≠ none := by
  intro hg
  simp only [resolveIdx, hg] at h
  exact Except.noConfusion h

/-- The line-writing loop raises nothing but the unknown-category error. -/
theorem writeLines_error (nm : List (Int × String)) (nl : List String) :
    ∀ (v : List AnnInfo) (acc : String) (e : ConvError),
      writeLines nm nl v acc = Except.error e → e = ConvError.unknownCategory := by
  intro v
  induction v with
  | nil =>
    intro acc e h
    simp only [writeLines] at h
    exact Except.noConfusion h
  | cons obj rest ih =>
    intro acc e h
    cases hr : resolveIdx nm nl obj.2.1 with
    | error e2 =>
      simp only [writeLines, hr] at h
      injection h with h
      rw [← h]
      exact resolveIdx_error nm nl obj.2.1 e2 hr
    | ok i =>
      simp only [writeLines, hr] at h
      exact ih _ e h

/-- When the line-writing loop succeeds, every written tuple's category id was
a key of the id-to-name dict. -/
theorem writeLines_ok_resolve (nm : List (Int × String)) (nl : List String) :
    ∀ (v : List AnnInfo) (acc content : String),
      writeLines nm nl v acc = Except.ok content →
      ∀ obj ∈ v, alistGet obj.2.1 nm ≠ none := by
  intro v
  induction v with
  | nil =>
    intro acc content _ obj hobj
    simp at hobj
  | cons obj0 rest ih =>
    intro acc content h obj hobj
    cases hr : resolveIdx nm nl obj0.2.1 with
    | error e =>
      simp only [writeLines, hr] at h
      exact Except.noConfusion h
    | ok i =>
      simp only [writeLines, hr] at h
      rcases List.mem_cons.mp hobj with h1 | h1
      · subst h1
        exact resolveIdx_ok_lookup nm nl obj.2.1 i hr
      · exact ih _ content h obj h1

/-- A tuple with an undeclared category id forces the line-writing loop into
the unknown-category error. -/
theorem writeLines_bad (nm : List (Int × String)) (nl : List String) :
    ∀ (v : List AnnInfo) (acc : String),
      (∃ obj ∈ v, alistGet obj.2.1 nm = none) →
      writeLines nm nl v acc = Except.error ConvError.unknownCategory := by
  intro v
  induction v with
  | nil => intro acc h; simp at h
  | cons obj0 rest ih =>
    intro acc h
    cases hr : resolveIdx nm nl obj0.2.1 with
    | error e =>
      have he := resolveIdx_error nm nl obj0.2.1 e hr
      subst he
      simp only [writeLines, hr]
    | ok i =>
      rcases h with ⟨obj, hobj, hbad⟩
      rcases List.mem_cons.mp hobj with h1 | h1
      · subst h1
        exact absurd hbad (resolveIdx_ok_lookup nm nl obj.2.1 i hr)
      · simp only [writeLines, hr]
        exact ih _ ⟨obj, h1, hbad⟩

/-- On a non-empty group, the per-group writer raises nothing but the
unknown-category error. -/
theorem saveOne_error_nonempty (nm : List (Int × String)) (nl : List String)
    (first : AnnInfo) (rest : List AnnInfo) (e : ConvError)
    (h : saveOne nm nl (first :: rest) = Except.error e) : e = ConvError.unknownCategory := by
  cases hw : writeLines nm nl (first :: rest) "" with
  | error e2 =>
    simp only [saveOne, hw] at h
    injection h with h
    rw [← h]
    exact writeLines_error nm nl _ _ e2 hw
  | ok content =>
    simp only [saveOne, hw] at h
    exact Except.noConfusion h

/-- With every group non-empty, the emitter either succeeds or raises the
unknown-category error. -/
theorem saveTxt_cases (nm : List (Int × String)) (nl : List String) :
    ∀ (m : GroupMap), (∀ kv ∈ m, kv.2 ≠ []) →
      (∃ fs, saveTxt nm nl m = Except.ok fs) ∨
        saveTxt nm nl m = Except.error ConvError.unknownCategory := by
  intro m
  induction m with
  | nil => intro _; exact Or.inl ⟨[], rfl⟩
  | cons g rest ih =>
    intro hm
    have hg : g.2 ≠ [] := hm g (List.mem_cons_self _ _)
    obtain ⟨first, rest2, hgv⟩ : ∃ f r, g.2 = f :: r := by
      cases hv : g.2 with
      | nil => exact absurd hv hg
      | cons f r => exact ⟨f, r, rfl⟩
    cases hs : saveOne nm nl g.2 with
    | error e =>
      have he := saveOne_error_nonempty nm nl first rest2 e (hgv ▸ hs)
      subst he
      right
      simp only [saveTxt, hs]
    | ok f =>
      rcases ih (fun kv hkv => hm kv (List.mem_cons_of_mem g hkv)) with ⟨fs, hfs⟩ | herr
      · left
        exact ⟨f :: fs, by simp only [saveTxt, hs, hfs]⟩
      · right
        simp only [saveTxt, hs, herr]

/-- When the emitter succeeds, every tuple of every group had a declared
category id. -/
theorem saveTxt_ok_resolve (nm : List (Int × String)) (nl : List String) :
    ∀ (m : GroupMap) (fs : List (String × String)), saveTxt nm nl m = Except.ok fs →
      ∀ kv ∈ m, ∀ obj ∈ kv.2, alistGet obj.2.1 nm ≠ none := by
  intro m
  induction m with
  | nil =>
    intro fs _ kv hkv
    simp at hkv
  | cons g rest ih =>
    intro fs h kv hkv obj hobj
    cases hs : saveOne nm nl g.2 with
    | error e =>
      simp only [saveTxt, hs] at h
      exact Except.noConfusion h
    | ok f =>
      cases ht : saveTxt nm nl rest with
      | error e =>
        simp only [saveTxt, hs, ht] at h
        exact Except.noConfusion h
      | ok fs2 =>
        rcases List.mem_cons.mp hkv with h1 | h1
        · subst h1
          cases hv : kv.2 with
          | nil =>
            rw [hv] at hobj
            simp at hobj
          | cons f2 r2 =>
            rw [hv] at hobj
            rw [hv] at hs
            cases hw : writeLines nm nl (f2 :: r2) "" with
            | error e =>
              simp only [saveOne, hw] at hs
              exact Except.noConfusion hs
            | ok content =>
              exact writeLines_ok_resolve nm nl (f2 :: r2) "" content hw obj hobj
        · exact ih fs2 ht kv h1 obj hobj

/-- The transformer stage never raises the unknown-category error. -/
theorem convertAnns_ne_unknown (l : Labels) (info : List (Int × (String × ℚ × ℚ))) :
    convertAnns l info ≠ Except.error ConvError.unknownCategory := by
  intro h
  cases hA : l.anns with
  | none =>
    simp only [convertAnns, hA] at h
    injection h with h
    exact ConvError.noConfusion h
  | some la =>
    simp only [convertAnns, hA] at h
    have he := foldSteps_error info la [] _ h
    exact absurd he (by decide)

/-- C7 counterexample: on a document whose record references an undeclared
category id (but a valid image), the transformer stage succeeds — it returns
the groups — and only the full conversion, in its emitter stage, raises the
unknown-category error.  This refutes the claim that the failure occurs during
the transformer stage. -/
theorem unknown_category_not_in_transformer :
    convertAnns labelsUndeclared (loadImagesInfo labelsUndeclared) = Except.ok demoGroups ∧
      convert labelsUndeclared = Except.error ConvError.unknownCategory :=
  ⟨rfl, rfl⟩

/-- C7 amended: a record with an undeclared category id does raise the
unknown-category error and it propagates, but during the label-emitter stage
(`__save_txt_file`); the transformer stage never raises it, passing the raw
category id through. -/
theorem unknown_category_in_emitter :
    (∀ (l : Labels) (info : List (Int × (String × ℚ × ℚ))),
        convertAnns l info ≠ Except.error ConvError.unknownCategory) ∧
      (∀ (nm : List (Int × String)) (nl : List String) (m : GroupMap),
        (∀ kv ∈ m, kv.2 ≠ []) →
        (∃ kv ∈ m, ∃ obj ∈ kv.2, alistGet obj.2.1 nm = none) →
        saveTxt nm nl m = Except.error ConvError.unknownCategory) := by
  constructor
  · exact convertAnns_ne_unknown
  · intro nm nl m hne hbad
    rcases saveTxt_cases nm nl m hne with ⟨fs, hok⟩ | herr
    · rcases hbad with ⟨kv, hkv, obj, hobj, hget⟩
      exact absurd hget (saveTxt_ok_resolve nm nl m fs hok kv hkv obj hobj)
    · exact herr

/-- C7 amended witness: the concrete undeclared-category document. -/
theorem unknown_category_in_emitter_witness :
    convertAnns labelsUndeclared (loadImagesInfo labelsUndeclared)
        ≠ Except.error ConvError.unknownCategory ∧
      saveTxt [((1 : Int), "cat")] ["cat"] demoGroups
        = Except.error ConvError.unknownCategory :=
  ⟨unknown_category_in_emitter.1 labelsUndeclared (loadImagesInfo labelsUndeclared),
    unknown_category_in_emitter.2 [(1, "cat")] ["cat"] demoGroups (by decide) (by decide)⟩

/-- The empty string is a left identity of append. -/
theorem strEmpty_append (a : String) : "" ++ a = a := by
  apply strEq_of_data
  rw [strData_append]
  rfl

/-- When every category id of a group resolves, the line-writing loop succeeds
and appends exactly the concatenation of the per-tuple lines, in order. -/
theorem writeLines_ok_eq (nm : List (Int × String)) (nl : List String) :
    ∀ (v : List AnnInfo) (acc : String),
      (∀ obj ∈ v, resolveIdx nm nl obj.2.1 ≠ Except.error ConvError.unknownCategory) →
      writeLines nm nl v acc = Except.ok (acc ++ concatAll (v.map (lineStr nm nl))) := by
  intro v
  induction v with
  | nil =>
    intro acc _
    rw [List.map_nil, writeLines, concatAll, strAppend_empty]
  | cons obj rest ih =>
    intro acc h
    cases hr : resolveIdx nm nl obj.2.1 with
    | error e =>
      have he := resolveIdx_error nm nl obj.2.1 e hr
      subst he
      exact absurd hr (h obj (List.mem_cons_self _ _))
    | ok i =>
      simp only [writeLines, hr]
      rw [ih _ (fun o ho => h o (List.mem_cons_of_mem obj ho))]
      have hidx : classIdxD nm nl obj.2.1 = i := by simp [classIdxD, hr]
      simp only [List.map_cons, concatAll, lineStr, hidx]
      congr 1
      simp [strAppend_assoc]

/-- Lookup after setting the same key finds the new value. -/
theorem alistGet_set_same {β : Type} (k : Int) (v : β) :
    ∀ m : List (Int × β), alistGet k (alistSet k v m) = some v := by
  intro m
  induction m with
  | nil => simp [alistGet, alistSet]
  | cons p rest ih =>
    rw [alistSet]
    by_cases hp : p.1 = k
    · rw [if_pos hp, alistGet, if_pos rfl]
    · rw [if_neg hp, alistGet, if_neg hp]
      exact ih

/-- Lookup of a different key is unchanged by setting. -/
theorem alistGet_set_other {β : Type} (k k2 : Int) (v : β) (hne : k2 ≠ k) :
    ∀ m : List (Int × β), alistGet k2 (alistSet k v m) = alistGet k2 m := by
  intro m
  induction m with
  | nil =>
    simp [alistSet, alistGet, Ne.symm hne]
  | cons p rest ih =>
    rw [alistSet]
    by_cases hp : p.1 = k
    · rw [if_pos hp]
      simp [alistGet, hp, Ne.symm hne]
    · rw [if_neg hp]
      by_cases hp2 : p.1 = k2
      · simp [alistGet, hp2]
      · simp [alistGet, hp2, ih]

/-- One step of the transformer appends exactly its record's tuple to the group
of its image id and leaves every other group unchanged. -/
theorem convStep_group (info : List (Int × (String × ℚ × ℚ))) (m : GroupMap)
    (a : AnnRecord) (m2 : GroupMap) (h : convStep info m a = Except.ok m2) (k : Int) :
    (alistGet k m2).getD [] =
      (alistGet k m).getD [] ++ if a.imageId = k then [annInfoOf info a] else [] := by
  cases hg : alistGet a.imageId info with
  | none =>
    simp only [convStep, hg] at h
    exact Except.noConfusion h
  | some imgInfo =>
    have hai : annInfoOf info a
        = (imgInfo.1, a.categoryId, convertBbox a.bbox imgInfo.2.1 imgInfo.2.2) := by
      simp [annInfoOf, hg]
    simp only [convStep, hg] at h
    by_cases hc : ((alistGet a.imageId m).getD []).isEmpty
    · rw [if_pos hc] at h
      injection h with h
      subst h
      by_cases hk : a.imageId = k
      · subst hk
        have hcur : (alistGet a.imageId m).getD [] = [] := by
          cases hcc : (alistGet a.imageId m).getD [] with
          | nil => rfl
          | cons y ys =>
            rw [hcc] at hc
            simp at hc
        rw [alistGet_set_same, hcur, hai]
        simp
      · rw [alistGet_set_other _ _ _ (fun h2 => hk h2.symm) m, if_neg hk, List.append_nil]
    · rw [if_neg hc] at h
      injection h with h
      subst h
      by_cases hk : a.imageId = k
      · subst hk
        rw [alistGet_set_same, hai]
        simp
      · rw [alistGet_set_other _ _ _ (fun h2 => hk h2.symm) m, if_neg hk, List.append_nil]

/-- The transformer loop appends to each group the tuples of its records in
source order. -/
theorem foldSteps_group (info : List (Int × (String × ℚ × ℚ))) :
    ∀ (xs : List AnnRecord) (m0 m : GroupMap), foldSteps info xs m0 = Except.ok m →
      ∀ k : Int, (alistGet k m).getD [] =
        (alistGet k m0).getD [] ++ (xs.filter (fun a => a.imageId == k)).map (annInfoOf info) := by
  intro xs
  induction xs with
  | nil =>
    intro m0 m h k
    simp only [foldSteps] at h
    injection h with h
    subst h
    simp
  | cons a rest ih =>
    intro m0 m h k
    cases hs : convStep info m0 a with
    | error e =>
      simp only [foldSteps, hs] at h
      exact Except.noConfusion h
    | ok m1 =>
      simp only [foldSteps, hs] at h
      rw [ih m1 m h k, convStep_group info m0 a m1 hs k]
      by_cases hk : a.imageId = k
      · simp [List.filter_cons, hk, List.append_assoc]
      · simp [List.filter_cons, hk]

/-- On a successful run, the group stored under each image id is exactly the
source-order sequence of tuples of the records referencing that image id. -/
theorem convertAnns_group (l : Labels) (info : List (Int × (String × ℚ × ℚ)))
    (la : List AnnRecord) (hl : l.anns = some la) (m : GroupMap)
    (h : convertAnns l info = Except.ok m) (k : Int) :
    (alistGet k m).getD [] = (la.filter (fun a => a.imageId == k)).map (annInfoOf info) := by
  simp only [convertAnns, hl] at h
  have hg := foldSteps_group info la [] m h k
  simpa [alistGet] using hg

/-- C8: each output file holds exactly one newline-terminated line per tuple of
its group, in group order; each group holds the tuples of its image's records
in source order; each line is the class index, a space, and the four box
coordinates rendered with exactly six digit characters after the single
decimal point, space-separated. -/
theorem emitted_lines_format :
    (∀ (l : Labels) (info : List (Int × (String × ℚ × ℚ))) (la : List AnnRecord)
        (m : GroupMap), l.anns = some la → convertAnns l info = Except.ok m →
        ∀ k : Int, (alistGet k m).getD []
          = (la.filter (fun a => a.imageId == k)).map (annInfoOf info)) ∧
      (∀ (nm : List (Int × String)) (nl : List String) (value : List AnnInfo) (acc : String),
        (∀ obj ∈ value, resolveIdx nm nl obj.2.1 ≠ Except.error ConvError.unknownCategory) →
        writeLines nm nl value acc = Except.ok (acc ++ concatAll (value.map (lineStr nm nl)))) ∧
      (∀ q : ℚ,
        fmt6 q = String.mk (fmt6IntChars q) ++ "." ++ String.mk (fmt6FracChars q) ∧
          (fmt6FracChars q).length = 6 ∧
          (∀ c ∈ fmt6FracChars q, c.isDigit = true) ∧
          (∀ c ∈ fmt6IntChars q, c ≠ '.')) := by
  refine ⟨fun l info la m hl h k => convertAnns_group l info la hl m h k, writeLines_ok_eq, ?_⟩
  · intro q
    refine ⟨rfl, digitsFixed_length 6 _, digitsFixed_digits 6 _, ?_⟩
    intro c hc
    simp only [fmt6IntChars] at hc
    rcases List.mem_append.mp hc with h1 | h1
    · by_cases hn : ratRound (q * 1000000) < 0
      · rw [if_pos hn] at h1
        simp at h1
        subst h1
        decide
      · rw [if_neg hn] at h1
        simp at h1
    · exact isDigit_ne_dot c (natDigs_digits _ c h1)

/-- C8 witness: the concrete group of `labelsUndeclared` holds its single
record's tuple, and one resolvable tuple is written from the empty
accumulator. -/
theorem emitted_lines_format_witness :
    (alistGet 10 demoGroups).getD []
        = (([⟨10, 2, (10, 20, 30, 40)⟩] : List AnnRecord).filter
            (fun a => a.imageId == 10)).map (annInfoOf (loadImagesInfo labelsUndeclared)) ∧
      writeLines [((1 : Int), "cat")] ["cat"]
          [("img.jpg", 1, ((1 : ℚ) / 4, (2 : ℚ) / 5, (3 : ℚ) / 10, (2 : ℚ) / 5))] ""
        = Except.ok ("" ++ concatAll
            ([(("img.jpg" : String), (1 : Int),
                ((1 : ℚ) / 4, (2 : ℚ) / 5, (3 : ℚ) / 10, (2 : ℚ) / 5))].map
              (lineStr [((1 : Int), "cat")] ["cat"]))) :=
  ⟨emitted_lines_format.1 labelsUndeclared (loadImagesInfo labelsUndeclared)
      [⟨10, 2, (10, 20, 30, 40)⟩] demoGroups rfl rfl 10,
    emitted_lines_format.2.1 [(1, "cat")] ["cat"] _ "" (by decide)⟩

/-- C9: the name of each output file is the stem of the file name carried by
the group's first tuple — extension stripped, directory dropped — with ".txt"
appended; in particular the stem of "folder/pic.jpg" is "pic". -/
theorem output_file_name :
    (∀ (nm : List (Int × String)) (nl : List String) (first : AnnInfo) (rest : List AnnInfo),
        (∀ obj ∈ first :: rest,
          resolveIdx nm nl obj.2.1 ≠ Except.error ConvError.unknownCategory) →
        saveOne nm nl (first :: rest)
          = Except.ok (stemOf first.1 ++ ".txt",
              concatAll ((first :: rest).map (lineStr nm nl)))) ∧
      stemOf "folder/pic.jpg" = "pic" := by
  constructor
  · intro nm nl first rest h
    have hw := writeLines_ok_eq nm nl (first :: rest) "" h
    simp only [saveOne, hw]
    rw [strEmpty_append]
  · decide

/-- C9 witness: a group whose first tuple carries the file name "img.jpg". -/
theorem output_file_name_witness :
    saveOne [((1 : Int), "cat")] ["cat"]
        [("img.jpg", 1, ((1 : ℚ) / 4, (2 : ℚ) / 5, (3 : ℚ) / 10, (2 : ℚ) / 5))]
      = Except.ok (stemOf "img.jpg" ++ ".txt",
          concatAll ([(("img.jpg" : String), (1 : Int),
              ((1 : ℚ) / 4, (2 : ℚ) / 5, (3 : ℚ) / 10, (2 : ℚ) / 5))].map
            (lineStr [((1 : Int), "cat")] ["cat"]))) :=
  output_file_name.1 [(1, "cat")] ["cat"] _ [] (by decide)

/-- Membership in an updated dict comes from the new binding or the old dict. -/
theorem alistSet_mem {β : Type} (k : Int) (v : β) :
    ∀ (m : List (Int × β)) (kv : Int × β), kv ∈ alistSet k v m → kv = (k, v) ∨ kv ∈ m := by
  intro m
  induction m with
  | nil =>
    intro kv hkv
    simp [alistSet] at hkv
    exact Or.inl hkv
  | cons p rest ih =>
    intro kv hkv
    rw [alistSet] at hkv
    by_cases hp : p.1 = k
    · rw [if_pos hp] at hkv
      rcases List.mem_cons.mp hkv with h1 | h1
      · exact Or.inl h1
      · exact Or.inr (List.mem_cons_of_mem p h1)
    · rw [if_neg hp] at hkv
      rcases List.mem_cons.mp hkv with h1 | h1
      · exact Or.inr (h1 ▸ List.mem_cons_self p rest)
      · rcases ih kv h1 with h2 | h2
        · exact Or.inl h2
        · exact Or.inr (List.mem_cons_of_mem p h2)

/-- The per-record step keeps every stored group non-empty. -/
theorem convStep_nonempty (info : List (Int × (String × ℚ × ℚ))) (m : GroupMap)
    (a : AnnRecord) (m2 : GroupMap) (h : convStep info m a = Except.ok m2)
    (hm : ∀ kv ∈ m, kv.2 ≠ []) : ∀ kv ∈ m2, kv.2 ≠ [] := by
  intro kv hkv
  cases hg : alistGet a.imageId info with
  | none =>
    simp only [convStep, hg] at h
    exact Except.noConfusion h
  | some imgInfo =>
    simp only [convStep, hg] at h
    by_cases hc : ((alistGet a.imageId m).getD []).isEmpty
    · rw [if_pos hc] at h
      injection h with h
      subst h
      rcases alistSet_mem _ _ m kv hkv with h1 | h1
      · rw [h1]
        simp
      · exact hm kv h1
    · rw [if_neg hc] at h
      injection h with h
      subst h
      rcases alistSet_mem _ _ m kv hkv with h1 | h1
      · rw [h1]
        simp
      · exact hm kv h1

/-- The transformer loop keeps every stored group non-empty. -/
theorem foldSteps_nonempty (info : List (Int × (String × ℚ × ℚ))) :
    ∀ (xs : List AnnRecord) (m m2 : GroupMap), foldSteps info xs m = Except.ok m2 →
      (∀ kv ∈ m, kv.2 ≠ []) → ∀ kv ∈ m2, kv.2 ≠ [] := by
  intro xs
  induction xs with
  | nil =>
    intro m m2 h hm
    simp only [foldSteps] at h
    injection h with h
    subst h
    exact hm
  | cons a rest ih =>
    intro m m2 h hm
    cases hs : convStep info m a with
    | error e =>
      simp only [foldSteps, hs] at h
      exact Except.noConfusion h
    | ok m3 =>
      simp only [foldSteps, hs] at h
      exact ih m3 m2 h (convStep_nonempty info m a m3 hs hm)

/-- Under the all-groups-non-empty invariant, the falsy check of the
aggregation dict is equivalent to key absence. -/
theorem getD_isEmpty_iff (m : GroupMap) (hm : ∀ kv ∈ m, kv.2 ≠ []) (k : Int) :
    ((alistGet k m).getD []).isEmpty = true ↔ alistGet k m = none := by
  cases hg : alistGet k m with
  | none => simp
  | some v =>
    have hv : v ≠ [] := hm (k, v) (alistGet_mem k v m hg)
    cases v with
    | nil => exact absurd rfl hv
    | cons x xs => simp

/-- C10: every group stored by the transformer is non-empty, so the falsy
check never mistakes an existing group for a missing one, and the emitter's
first-element access can never raise. -/
theorem aggregation_groups_nonempty (l : Labels) (info : List (Int × (String × ℚ × ℚ)))
    (m : GroupMap) (h : convertAnns l info = Except.ok m) :
    (∀ kv ∈ m, kv.2 ≠ []) ∧
      (∀ k : Int, ((alistGet k m).getD []).isEmpty = true ↔ alistGet k m = none) ∧
      (∀ (nm : List (Int × String)) (nl : List String),
        saveTxt nm nl m ≠ Except.error ConvError.emptyGroup) := by
  have hne : ∀ kv ∈ m, kv.2 ≠ [] := by
    cases hA : l.anns with
    | none =>
      simp only [convertAnns, hA] at h
      exact Except.noConfusion h
    | some la =>
      simp only [convertAnns, hA] at h
      refine foldSteps_nonempty info la [] m h ?_
      intro kv hkv
      simp at hkv
  refine ⟨hne, fun k => getD_isEmpty_iff m hne k, ?_⟩
  intro nm nl hcontra
  rcases saveTxt_cases nm nl m hne with ⟨fs, hok⟩ | herr
  · rw [hok] at hcontra
    exact Except.noConfusion hcontra
  · rw [herr] at hcontra
    injection hcontra with hcontra
    exact ConvError.noConfusion hcontra

/-- C10 witness: the group map built from `labelsUndeclared`. -/
theorem aggregation_groups_nonempty_witness :
    (((alistGet 10 demoGroups).getD []).isEmpty = true ↔ alistGet 10 demoGroups = none) ∧
      saveTxt [((1 : Int), "cat")] ["cat"] demoGroups ≠ Except.error ConvError.emptyGroup :=
  ⟨(aggregation_groups_nonempty labelsUndeclared (loadImagesInfo labelsUndeclared)
        demoGroups rfl).2.1 10,
    (aggregation_groups_nonempty labelsUndeclared (loadImagesInfo labelsUndeclared)
        demoGroups rfl).2.2 [(1, "cat")] ["cat"]⟩

end Coco2Yolo
